import Mathlib

/-!
Shallow embedding of the memo-stack lifecycle core
(`src/app.rs`, `src/database.rs`, `src/ui/tabs.rs`).

Modelling conventions:
* timestamps (`chrono::DateTime<Utc>`) are integers (seconds on a totally
  ordered clock); `chrono::Duration::minutes d` contributes `60 * d`;
* the Rust `HashMap<i32, MemoData>` is an association list with
  replace-or-append insertion (`HashMap::insert` replaces the entry for an
  existing key); iteration order of the map is the list order;
* `Utc::now()` and the id returned by the database insert are explicit
  parameters of the operations that use them;
* `Vec<i32>` is `List Int`; `Vec::insert(0, x)` is cons, `Vec::pop` is
  `dropLast`/`getLast`, `Vec::retain` is `filter`;
* fallible database writes are modelled separately (the `..._db` variants
  below) by an oracle `ok : Nat → Bool` telling whether the n-th write of the
  run succeeds; the pure operations are the all-writes-succeed projections.
-/

inductive MemoStatus where
  | Hot
  | Cold
  | Done
  | Delayed
deriving DecidableEq

structure MemoData where
  id : Int
  title : String
  body : String
  status : MemoStatus
  creation_date : Int
  moved_to_done_date : Option Int
  delay_minutes : Option Nat
  expanded : Bool
deriving DecidableEq

abbrev MemoMap := List (Int × MemoData)

/-- `HashMap::get` on the association-list model: the first entry with the
key. -/
def mapLookup : MemoMap → Int → Option MemoData
  | [], _ => none
  | p :: m, id => if p.1 = id then some p.2 else mapLookup m id

/-- `HashMap::get_mut` followed by a record mutation: rewrite the entry with
the key in place. -/
def mapUpdate : MemoMap → Int → (MemoData → MemoData) → MemoMap
  | [], _, _ => []
  | p :: m, id, f => (if p.1 = id then (p.1, f p.2) else p) :: mapUpdate m id f

/-- Replace the entry with the key in place (the present-key case of
`HashMap::insert`). -/
def mapReplace : MemoMap → Int → MemoData → MemoMap
  | [], _, _ => []
  | p :: m, id, v => (if p.1 = id then (id, v) else p) :: mapReplace m id v

/-- `HashMap::insert`: replace the entry for an existing key, otherwise add
the binding. -/
def mapInsert (m : MemoMap) (id : Int) (v : MemoData) : MemoMap :=
  if (mapLookup m id).isSome then mapReplace m id v else m ++ [(id, v)]

/-- In-memory application state: the fields of `MemoApp` the lifecycle core
reads and writes (`hot_stack`, `memos`, the draft text used by
`replace_memo`), plus the configured capacity `config.max_hot_count`. -/
structure MemoApp where
  hot_stack : List Int
  memos : MemoMap
  max_hot_count : Nat
  new_memo_text : String
deriving DecidableEq

/-- `MemoApp::move_to_cold` (app.rs 209-217): set the memo's status to `Cold`
if it exists (nothing else on the record is touched), then remove the id from
the hot stack. -/
def move_to_cold (s : MemoApp) (id : Int) : MemoApp :=
  { s with
    memos := mapUpdate s.memos id (fun m => { m with status := .Cold }),
    hot_stack := s.hot_stack.filter (fun x => x != id) }

/-- `MemoApp::move_to_done` (app.rs 219-229): set status `Done` and stamp
`moved_to_done_date` if the memo exists, then remove the id from the stack. -/
def move_to_done (s : MemoApp) (id : Int) (now : Int) : MemoApp :=
  { s with
    memos := mapUpdate s.memos id
      (fun m => { m with status := .Done, moved_to_done_date := some now }),
    hot_stack := s.hot_stack.filter (fun x => x != id) }

/-- The shared push-to-front-and-evict step of `add_memo` and `move_to_hot`
(app.rs 194-204 and 237-247): insert the id at the front; if the stack now
exceeds `max_hot_count`, pop the back element and `move_to_cold` it. -/
def hotPush (s : MemoApp) (id : Int) : MemoApp :=
  let stack := id :: s.hot_stack
  if stack.length > s.max_hot_count then
    let moved := stack.getLast (List.cons_ne_nil id s.hot_stack)
    move_to_cold { s with hot_stack := stack.dropLast } moved
  else
    { s with hot_stack := stack }

/-- `MemoApp::move_to_hot` (app.rs 231-250): if the memo exists, set status
`Hot`, clear `moved_to_done_date`, and push the id to the stack front with the
eviction check; if the memo does not exist, nothing happens. -/
def move_to_hot (s : MemoApp) (id : Int) : MemoApp :=
  if (mapLookup s.memos id).isSome then
    hotPush
      { s with
        memos := mapUpdate s.memos id
          (fun m => { m with status := .Hot, moved_to_done_date := none }) }
      id
  else s

/-- `MemoApp::add_memo` (app.rs 162-207): status is `Delayed` exactly when
`delay_minutes.is_some()`; the record is inserted into the map; only a `Hot`
memo is pushed onto the stack (with the eviction check). `new_id` is the id
the database insert returned, `now` is `Utc::now()`. -/
def add_memo (s : MemoApp) (title body : String) (delay_minutes : Option Nat)
    (now : Int) (new_id : Int) : MemoApp :=
  let status := if delay_minutes.isSome then MemoStatus.Delayed else MemoStatus.Hot
  let memo : MemoData :=
    { id := new_id, title := title, body := body, status := status,
      creation_date := now, moved_to_done_date := none,
      delay_minutes := delay_minutes, expanded := false }
  let s1 := { s with memos := mapInsert s.memos new_id memo }
  if status = MemoStatus.Hot then hotPush s1 new_id else s1

/-- `MemoApp::delete_memo` (app.rs 252-262): remove the record from the map
and the id from the stack. -/
def delete_memo (s : MemoApp) (id : Int) : MemoApp :=
  { s with
    memos := s.memos.filter (fun p => p.1 != id),
    hot_stack := s.hot_stack.filter (fun x => x != id) }

/-- Swap the adjacent elements at positions `n` and `n + 1` (model of
`Vec::swap (pos - 1) pos` for adjacent positions). -/
def swapAdj : List Int → Nat → List Int
  | x :: y :: rest, 0 => y :: x :: rest
  | x :: rest, n + 1 => x :: swapAdj rest n
  | l, _ => l

/-- `MemoApp::shift_up_in_hot` (app.rs 264-272): if the id occurs in the stack
at position `pos > 0`, swap it with its predecessor. -/
def shift_up_in_hot (s : MemoApp) (id : Int) : MemoApp :=
  match s.hot_stack.findIdx? (fun x => x == id) with
  | some pos =>
      if 0 < pos then { s with hot_stack := swapAdj s.hot_stack (pos - 1) }
      else s
  | none => s

/-- `MemoApp::move_to_top_in_hot` (app.rs 274-283): remove every occurrence of
the id, then insert it at position 0.  No memo lookup, no capacity check. -/
def move_to_top_in_hot (s : MemoApp) (id : Int) : MemoApp :=
  { s with hot_stack := id :: s.hot_stack.filter (fun x => x != id) }

/-- `str::trim_end` on the character-list view. -/
def listTrimRight (l : List Char) : List Char :=
  (l.reverse.dropWhile Char.isWhitespace).reverse

/-- `str::trim` (both ends) on the character-list view. -/
def listTrim (l : List Char) : List Char :=
  listTrimRight (l.dropWhile Char.isWhitespace)

/-- `MemoApp::parse_memo_text` (tabs.rs 452-461): trim the draft; the title is
everything before the first newline (trimmed), the body everything after it
(right-trimmed); no newline means an empty body. -/
def parse_memo_text (text : String) : String × String :=
  let t := listTrim text.data
  if t.contains '\n' then
    (String.mk (listTrim (t.takeWhile (fun c => c != '\n'))),
     String.mk (listTrimRight ((t.dropWhile (fun c => c != '\n')).drop 1)))
  else (String.mk t, "")

/-- `MemoApp::replace_memo` (app.rs 285-304): if the draft text is non-blank,
capture it first as an ordinary memo (with the id `new_id` the database
returns); then, if the target memo exists, load its text into the draft and
delete it. -/
def replace_memo (s : MemoApp) (id : Int) (now : Int) (new_id : Int) : MemoApp :=
  let s1 :=
    if (listTrim s.new_memo_text.data).isEmpty then s
    else
      let tb := parse_memo_text s.new_memo_text
      add_memo s tb.1 tb.2 none now new_id
  match mapLookup s1.memos id with
  | some memo =>
      let text := if memo.body.isEmpty then memo.title
                  else memo.title ++ "\n" ++ memo.body
      delete_memo { s1 with new_memo_text := text } id
  | none => s1

/-- The promotion test of `check_and_promote_delayed_memos` (app.rs 346-357):
status is `Delayed`, a delay is recorded, and
`now ≥ creation_date + minutes (delay)`. -/
def memo_ready (now : Int) (m : MemoData) : Bool :=
  m.status == .Delayed &&
    match m.delay_minutes with
    | some d => decide (m.creation_date + 60 * (d : Int) ≤ now)
    | none => false

/-- `MemoApp::check_and_promote_delayed_memos` (app.rs 341-365): collect the
ids of all ready delayed memos, then `move_to_hot` each in turn. -/
def check_and_promote_delayed_memos (s : MemoApp) (now : Int) : MemoApp :=
  let to_promote := (s.memos.filter (fun p => memo_ready now p.2)).map (fun p => p.1)
  to_promote.foldl (fun st id => move_to_hot st id) s

/-- `MemoApp::parse_delay_input` (tabs.rs 422-441): the literal `"00:00"` means
no delay; otherwise an `HH:MM` string with both fields numeric and `< 100`
yields `hours * 60 + minutes` (note: `some 0` for strings such as `"0:00"`);
anything else yields `none`. -/
def splitOnChar (c : Char) : List Char → List (List Char)
  | [] => [[]]
  | x :: xs =>
      if x = c then [] :: splitOnChar c xs
      else
        match splitOnChar c xs with
        | [] => [[x]]
        | h :: t => (x :: h) :: t

/-- `str::parse::<u32>` restricted to plain digit strings (the only inputs the
delay field produces). -/
def parseNatDigits (l : List Char) : Option Nat :=
  if l.isEmpty then none
  else if l.all Char.isDigit then
    some (l.foldl (fun acc c => acc * 10 + (c.toNat - 48)) 0)
  else none

def parse_delay_input (delay_input : String) : Option Nat :=
  if delay_input = "00:00" then none
  else
    match splitOnChar ':' delay_input.data with
    | [hs, ms] =>
        match parseNatDigits hs, parseNatDigits ms with
        | some hours, some minutes =>
            if hours < 100 && minutes < 100 then
              let total_minutes := hours * 60 + minutes
              if total_minutes > 0 then some total_minutes else some 0
            else none
        | _, _ => none
    | _ => none

/-- `str::contains` on character lists: some contiguous slice of `hay` equals
`needle`. -/
def strContains (hay needle : List Char) : Bool :=
  (List.range (hay.length + 1)).any
    (fun i => List.take needle.length (List.drop i hay) == needle)

/-- The search test of `get_filtered_memos` (tabs.rs 483-487): the lowercased
search string occurs in the lowercased title or body (`to_lowercase` is
modelled per character). -/
def memo_matches (search : String) (m : MemoData) : Bool :=
  strContains (m.title.data.map Char.toLower) (search.data.map Char.toLower) ||
    strContains (m.body.data.map Char.toLower) (search.data.map Char.toLower)

/-- The `Cold` comparator of `get_filtered_memos` (tabs.rs 492-494) as a
may-precede test: `b.creation_date.cmp(&a.creation_date) ≠ Greater`. -/
def coldLe (a b : Int × MemoData) : Bool :=
  decide (b.2.creation_date ≤ a.2.creation_date)

/-- The `Done` comparator of `get_filtered_memos` (tabs.rs 495-503) as a
may-precede test: completion time descending, memos without one after all that
have one, creation time descending among those. -/
def doneLe (a b : Int × MemoData) : Bool :=
  match a.2.moved_to_done_date, b.2.moved_to_done_date with
  | some x, some y => decide (y ≤ x)
  | some _, none => true
  | none, some _ => false
  | none, none => decide (b.2.creation_date ≤ a.2.creation_date)

def coldR (a b : Int × MemoData) : Prop := coldLe a b = true

def doneR (a b : Int × MemoData) : Prop := doneLe a b = true

instance : DecidableRel coldR := fun a b => instDecidableEqBool (coldLe a b) true

instance : DecidableRel doneR := fun a b => instDecidableEqBool (doneLe a b) true

/-- `MemoApp::get_filtered_memos` (tabs.rs 470-509): keep the memos of the
target status; if the search string is not blank, keep those matching it;
`Cold` and `Done` results are stably sorted by their comparators (Rust
`sort_by` is a stable sort, modelled by the stable `List.insertionSort`). -/
def get_filtered_memos (s : MemoApp) (status : MemoStatus) (search : String) :
    List (Int × MemoData) :=
  let memos := s.memos.filter (fun p => p.2.status == status)
  let memos :=
    if (listTrim search.data).isEmpty then memos
    else memos.filter (fun p => memo_matches search p.2)
  match status with
  | .Cold => List.insertionSort coldR memos
  | .Done => List.insertionSort doneR memos
  | _ => memos

/-- A durable write issued to the storage adapter. -/
inductive DbWrite where
  | insertMemo (title body : String) (delay_minutes : Option Nat)
  | updateStatus (id : Int) (st : MemoStatus)
  | saveStack (stack : List Int)
  | deleteRow (id : Int)
deriving DecidableEq

/-- `database::load_state`'s reconciliation (database.rs 118-123): drop from
the persisted stack every id whose memo record is missing or not `Hot`. -/
def reconcile_hot_stack (stack : List Int) (memos : MemoMap) : List Int :=
  stack.filter (fun id =>
    match mapLookup memos id with
    | some m => m.status == .Hot
    | none => false)

/-- `MemoApp::load_state` (app.rs 122-147) composed with
`database::load_state`: the in-memory stack is the reconciled stack, which is
immediately re-persisted by `database::save_hot_stack`.  Returns the stack
together with the writes issued. -/
def load_state (persisted_stack : List Int) (memos : MemoMap) :
    List Int × List DbWrite :=
  let cleaned := reconcile_hot_stack persisted_stack memos
  (cleaned, [DbWrite.saveStack cleaned])

/-- The write `move_to_top_in_hot` issues: `database::save_hot_stack` with the
post-mutation stack (app.rs 281). -/
def move_to_top_in_hot_writes (s : MemoApp) (id : Int) : List DbWrite :=
  [DbWrite.saveStack (move_to_top_in_hot s id).hot_stack]

/-- `MemoApp::move_to_cold` with fallible writes: the status write happens
after the in-memory status change, the stack write after the in-memory retain;
a failed write aborts the rest (Rust `?`) without rolling anything back.
Returns (state, success, next write index). -/
def move_to_cold_db (s : MemoApp) (id : Int) (ok : Nat → Bool) (k : Nat) :
    MemoApp × Bool × Nat :=
  if (mapLookup s.memos id).isSome then
    let s1 := { s with
      memos := mapUpdate s.memos id (fun m => { m with status := .Cold }) }
    if ok k then
      let s2 := { s1 with hot_stack := s1.hot_stack.filter (fun x => x != id) }
      (s2, ok (k + 1), k + 2)
    else (s1, false, k + 1)
  else
    let s2 := { s with hot_stack := s.hot_stack.filter (fun x => x != id) }
    (s2, ok k, k + 1)

/-- `MemoApp::move_to_done` with fallible writes, shaped like
`move_to_cold_db`. -/
def move_to_done_db (s : MemoApp) (id : Int) (now : Int) (ok : Nat → Bool)
    (k : Nat) : MemoApp × Bool × Nat :=
  if (mapLookup s.memos id).isSome then
    let s1 := { s with
      memos := mapUpdate s.memos id
        (fun m => { m with status := .Done, moved_to_done_date := some now }) }
    if ok k then
      let s2 := { s1 with hot_stack := s1.hot_stack.filter (fun x => x != id) }
      (s2, ok (k + 1), k + 2)
    else (s1, false, k + 1)
  else
    let s2 := { s with hot_stack := s.hot_stack.filter (fun x => x != id) }
    (s2, ok k, k + 1)

/-- `MemoApp::add_memo` with fallible writes: the database insert (which
allocates the id) comes first, before any in-memory mutation; a delayed memo
issues no further write; a hot memo may run the eviction's writes and then the
stack flush. -/
def add_memo_db (s : MemoApp) (title body : String) (delay_minutes : Option Nat)
    (now : Int) (new_id : Int) (ok : Nat → Bool) (k : Nat) :
    MemoApp × Bool × Nat :=
  if ok k then
    let status := if delay_minutes.isSome then MemoStatus.Delayed else MemoStatus.Hot
    let memo : MemoData :=
      { id := new_id, title := title, body := body, status := status,
        creation_date := now, moved_to_done_date := none,
        delay_minutes := delay_minutes, expanded := false }
    let s1 := { s with memos := mapInsert s.memos new_id memo }
    if status = MemoStatus.Hot then
      let stack := new_id :: s1.hot_stack
      if stack.length > s1.max_hot_count then
        let moved := stack.getLast (List.cons_ne_nil new_id s1.hot_stack)
        let r := move_to_cold_db { s1 with hot_stack := stack.dropLast } moved ok (k + 1)
        if r.2.1 then (r.1, ok r.2.2, r.2.2 + 1)
        else (r.1, false, r.2.2)
      else
        let s2 := { s1 with hot_stack := stack }
        (s2, ok (k + 1), k + 2)
    else (s1, true, k + 1)
  else (s, false, k + 1)

/-! ### Association-map lemmas -/

theorem mapLookup_mapUpdate_self (m : MemoMap) (id : Int) (f : MemoData → MemoData) :
    mapLookup (mapUpdate m id f) id = (mapLookup m id).map f := by
  induction m with
  | nil => rfl
  | cons p m ih =>
      by_cases h : p.1 = id
      · simp [mapLookup, mapUpdate, h]
      · simp [mapLookup, mapUpdate, h, ih]

theorem mapLookup_mapUpdate_ne (m : MemoMap) (id k : Int) (f : MemoData → MemoData)
    (h : k ≠ id) : mapLookup (mapUpdate m id f) k = mapLookup m k := by
  induction m with
  | nil => rfl
  | cons p m ih =>
      by_cases hp : p.1 = id
      · simp [mapLookup, mapUpdate, hp, Ne.symm h, ih]
      · by_cases hk : p.1 = k
        · simp [mapLookup, mapUpdate, hp, hk, h]
        · simp [mapLookup, mapUpdate, hp, hk, ih]

theorem mem_mapUpdate {m : MemoMap} {id : Int} {f : MemoData → MemoData}
    {q : Int × MemoData} (h : q ∈ mapUpdate m id f) :
    (q ∈ m ∧ q.1 ≠ id) ∨ ∃ p ∈ m, p.1 = id ∧ q = (p.1, f p.2) := by
  induction m with
  | nil => simp [mapUpdate] at h
  | cons p m ih =>
      rw [mapUpdate] at h
      rcases List.mem_cons.mp h with hq | hq
      · by_cases hp : p.1 = id
        · rw [if_pos hp] at hq
          exact Or.inr ⟨p, List.mem_cons_self p m, hp, hq⟩
        · rw [if_neg hp] at hq
          exact Or.inl ⟨List.mem_cons.mpr (Or.inl hq), hq ▸ hp⟩
      · rcases ih hq with ⟨h1, h2⟩ | ⟨r, hr, h1, h2⟩
        · exact Or.inl ⟨List.mem_cons.mpr (Or.inr h1), h2⟩
        · exact Or.inr ⟨r, List.mem_cons.mpr (Or.inr hr), h1, h2⟩

theorem mapLookup_mapReplace_self (m : MemoMap) (id : Int) (v : MemoData)
    (h : (mapLookup m id).isSome) : mapLookup (mapReplace m id v) id = some v := by
  induction m with
  | nil => simp [mapLookup] at h
  | cons p m ih =>
      by_cases hp : p.1 = id
      · simp [mapLookup, mapReplace, hp]
      · rw [mapLookup, if_neg hp] at h
        simp [mapLookup, mapReplace, hp, ih h]

theorem mapLookup_mapReplace_ne (m : MemoMap) (id k : Int) (v : MemoData)
    (h : k ≠ id) : mapLookup (mapReplace m id v) k = mapLookup m k := by
  induction m with
  | nil => rfl
  | cons p m ih =>
      by_cases hp : p.1 = id
      · simp [mapLookup, mapReplace, hp, Ne.symm h, ih]
      · by_cases hk : p.1 = k
        · simp [mapLookup, mapReplace, hp, hk, h]
        · simp [mapLookup, mapReplace, hp, hk, ih]

theorem mapLookup_append_right (m : MemoMap) (p : Int × MemoData)
    (h : mapLookup m p.1 = none) : mapLookup (m ++ [p]) p.1 = some p.2 := by
  induction m with
  | nil => simp [mapLookup]
  | cons q m ih =>
      by_cases hq : q.1 = p.1
      · rw [mapLookup, if_pos hq] at h; exact absurd h (by simp)
      · rw [mapLookup, if_neg hq] at h
        simpa [mapLookup, hq] using ih h

theorem mapLookup_append_ne (m : MemoMap) (p : Int × MemoData) (k : Int)
    (h : k ≠ p.1) : mapLookup (m ++ [p]) k = mapLookup m k := by
  induction m with
  | nil => simp [mapLookup, Ne.symm h]
  | cons q m ih =>
      by_cases hq : q.1 = k
      · simp [mapLookup, hq]
      · simp [mapLookup, hq, ih]

theorem mapLookup_mapInsert_self (m : MemoMap) (id : Int) (v : MemoData) :
    mapLookup (mapInsert m id v) id = some v := by
  unfold mapInsert
  by_cases h : (mapLookup m id).isSome
  · rw [if_pos h]; exact mapLookup_mapReplace_self m id v h
  · rw [if_neg h]
    have hn : mapLookup m id = none := by
      cases hc : mapLookup m id with
      | none => rfl
      | some w => rw [hc] at h; simp at h
    exact mapLookup_append_right m (id, v) hn

theorem mapLookup_mapInsert_ne (m : MemoMap) (id k : Int) (v : MemoData)
    (h : k ≠ id) : mapLookup (mapInsert m id v) k = mapLookup m k := by
  unfold mapInsert
  by_cases hs : (mapLookup m id).isSome
  · rw [if_pos hs]; exact mapLookup_mapReplace_ne m id k v h
  · rw [if_neg hs]; exact mapLookup_append_ne m (id, v) k h

theorem mem_mapReplace {m : MemoMap} {id : Int} {v : MemoData} {q : Int × MemoData}
    (h : q ∈ mapReplace m id v) : q = (id, v) ∨ (q ∈ m ∧ q.1 ≠ id) := by
  induction m with
  | nil => simp [mapReplace] at h
  | cons p m ih =>
      rw [mapReplace] at h
      rcases List.mem_cons.mp h with hq | hq
      · by_cases hp : p.1 = id
        · rw [if_pos hp] at hq; exact Or.inl hq
        · rw [if_neg hp] at hq
          exact Or.inr ⟨List.mem_cons.mpr (Or.inl hq), hq ▸ hp⟩
      · rcases ih hq with h1 | ⟨h1, h2⟩
        · exact Or.inl h1
        · exact Or.inr ⟨List.mem_cons.mpr (Or.inr h1), h2⟩

theorem mapLookup_eq_none_iff {m : MemoMap} {id : Int} :
    mapLookup m id = none ↔ ∀ p ∈ m, p.1 ≠ id := by
  induction m with
  | nil => simp [mapLookup]
  | cons p m ih =>
      by_cases hp : p.1 = id
      · simp [mapLookup, hp]
      · simp [mapLookup, hp, ih]

theorem mem_mapInsert {m : MemoMap} {id : Int} {v : MemoData} {q : Int × MemoData}
    (h : q ∈ mapInsert m id v) : q = (id, v) ∨ (q ∈ m ∧ q.1 ≠ id) := by
  unfold mapInsert at h
  by_cases hs : (mapLookup m id).isSome
  · rw [if_pos hs] at h; exact mem_mapReplace h
  · rw [if_neg hs] at h
    have hn : mapLookup m id = none := by
      cases hc : mapLookup m id with
      | none => rfl
      | some w => rw [hc] at hs; simp at hs
    rcases List.mem_append.mp h with hm | hm
    · exact Or.inr ⟨hm, mapLookup_eq_none_iff.mp hn q hm⟩
    · exact Or.inl (by simpa using hm)

theorem mapInsert_of_not_mem {m : MemoMap} {id : Int} {v : MemoData}
    (h : mapLookup m id = none) : mapInsert m id v = m ++ [(id, v)] := by
  simp [mapInsert, h]

/-! ### Stack-capacity lemmas -/

theorem hotPush_max (s : MemoApp) (id : Int) :
    (hotPush s id).max_hot_count = s.max_hot_count := by
  unfold hotPush
  dsimp only
  split <;> rfl

theorem hotPush_length_le (s : MemoApp) (id : Int)
    (h : s.hot_stack.length ≤ s.max_hot_count) :
    (hotPush s id).hot_stack.length ≤ s.max_hot_count := by
  unfold hotPush
  dsimp only
  split
  · show ((move_to_cold _ _).hot_stack).length ≤ _
    calc ((move_to_cold { s with hot_stack := (id :: s.hot_stack).dropLast } _).hot_stack).length
        ≤ ((id :: s.hot_stack).dropLast).length := List.length_filter_le _ _
      _ ≤ s.max_hot_count := by
          rw [List.length_dropLast]
          simpa using h
  · next hgt => simpa using Nat.le_of_not_lt hgt

theorem add_memo_max (s : MemoApp) (t b : String) (d : Option Nat) (now new_id : Int) :
    (add_memo s t b d now new_id).max_hot_count = s.max_hot_count := by
  unfold add_memo
  dsimp only
  split
  · rw [if_neg (by decide)]
  · rw [if_pos rfl]
    exact hotPush_max _ _

theorem move_to_hot_max (s : MemoApp) (id : Int) :
    (move_to_hot s id).max_hot_count = s.max_hot_count := by
  unfold move_to_hot
  split
  · exact hotPush_max _ _
  · rfl

theorem add_memo_length_le (s : MemoApp) (t b : String) (d : Option Nat)
    (now new_id : Int) (h : s.hot_stack.length ≤ s.max_hot_count) :
    (add_memo s t b d now new_id).hot_stack.length ≤ s.max_hot_count := by
  unfold add_memo
  dsimp only
  split
  · rw [if_neg (by decide)]
    exact h
  · rw [if_pos rfl]
    exact hotPush_length_le _ _ h

theorem move_to_hot_length_le (s : MemoApp) (id : Int)
    (h : s.hot_stack.length ≤ s.max_hot_count) :
    (move_to_hot s id).hot_stack.length ≤ s.max_hot_count := by
  unfold move_to_hot
  split
  · exact hotPush_length_le _ _ h
  · exact h

/-- A capture or a promotion, the two operations quantified over by the
capacity property. -/
inductive LifecycleOp where
  | capture (title body : String) (delay_minutes : Option Nat) (now : Int) (new_id : Int)
  | promote_to_hot (id : Int)

def applyOp (s : MemoApp) : LifecycleOp → MemoApp
  | .capture t b d now new_id => add_memo s t b d now new_id
  | .promote_to_hot id => move_to_hot s id

/-- Run a sequence of captures/promotions left to right. -/
def runOps (s : MemoApp) (ops : List LifecycleOp) : MemoApp :=
  ops.foldl applyOp s

theorem applyOp_max (s : MemoApp) (op : LifecycleOp) :
    (applyOp s op).max_hot_count = s.max_hot_count := by
  cases op with
  | capture t b d now new_id => exact add_memo_max s t b d now new_id
  | promote_to_hot id => exact move_to_hot_max s id

theorem applyOp_length_le (s : MemoApp) (op : LifecycleOp)
    (h : s.hot_stack.length ≤ s.max_hot_count) :
    (applyOp s op).hot_stack.length ≤ s.max_hot_count := by
  cases op with
  | capture t b d now new_id => exact add_memo_length_le s t b d now new_id h
  | promote_to_hot id => exact move_to_hot_length_le s id h

/-- C1: starting from a state whose hot stack has length at most
`max_hot_count` (with `max_hot_count ≥ 1`), after any prefix of any sequence
of `capture` (`add_memo`) and `promote_to_hot` (`move_to_hot`) calls the hot
stack length still does not exceed `max_hot_count` — every over-capacity push
immediately evicts the back element (app.rs 198-202 and 241-245). -/
theorem hot_stack_length_bounded (s : MemoApp) (ops : List LifecycleOp)
    (hmax : 1 ≤ s.max_hot_count)
    (hlen : s.hot_stack.length ≤ s.max_hot_count) (n : Nat) :
    (runOps s (ops.take n)).hot_stack.length ≤ s.max_hot_count := by
  induction ops generalizing s n with
  | nil => simpa [runOps] using hlen
  | cons op rest ih =>
      cases n with
      | zero => simpa [runOps] using hlen
      | succ n =>
          rw [List.take_succ_cons]
          show (runOps (applyOp s op) (rest.take n)).hot_stack.length ≤ s.max_hot_count
          have hmax' : 1 ≤ (applyOp s op).max_hot_count := by
            rw [applyOp_max]; exact hmax
          have hlen' : (applyOp s op).hot_stack.length ≤ (applyOp s op).max_hot_count := by
            rw [applyOp_max]; exact applyOp_length_le s op hlen
          have := ih (applyOp s op) hmax' hlen' n
          rwa [applyOp_max] at this

/-- The empty application state with a given capacity. -/
def app0 (max_hot : Nat) : MemoApp :=
  { hot_stack := [], memos := [], max_hot_count := max_hot, new_memo_text := "" }

/-- Witness for `hot_stack_length_bounded`: two captures and a promotion on a
capacity-1 state keep the stack within capacity. -/
theorem hot_stack_length_bounded_witness :
    (1 ≤ (app0 1).max_hot_count ∧ (app0 1).hot_stack.length ≤ (app0 1).max_hot_count) ∧
    (runOps (app0 1)
        (([LifecycleOp.capture "a" "" none 0 1, .capture "b" "" none 1 2,
           .promote_to_hot 1]).take 3)).hot_stack.length ≤ (app0 1).max_hot_count :=
  ⟨⟨by decide, by decide⟩,
    hot_stack_length_bounded (app0 1)
      [LifecycleOp.capture "a" "" none 0 1, .capture "b" "" none 1 2,
       .promote_to_hot 1] (by decide) (by decide) 3⟩

/-! ### No-duplicate lemmas (C4) -/

theorem swapAdj_perm (l : List Int) (n : Nat) : (swapAdj l n).Perm l := by
  induction l generalizing n with
  | nil => simp [swapAdj]
  | cons x rest ih =>
      cases n with
      | zero =>
          cases rest with
          | nil => simp [swapAdj]
          | cons y rest2 => simpa [swapAdj] using List.Perm.swap x y rest2
      | succ n => simpa [swapAdj] using List.Perm.cons x (ih n)

theorem hotPush_nodup (s : MemoApp) (id : Int) (hnd : s.hot_stack.Nodup)
    (hid : id ∉ s.hot_stack) : (hotPush s id).hot_stack.Nodup := by
  have h1 : (id :: s.hot_stack).Nodup := List.nodup_cons.mpr ⟨hid, hnd⟩
  unfold hotPush
  dsimp only
  split
  · exact List.Nodup.filter _ (List.Nodup.sublist (List.dropLast_sublist _) h1)
  · exact h1

theorem add_memo_nodup (s : MemoApp) (t b : String) (d : Option Nat)
    (now new_id : Int) (hnd : s.hot_stack.Nodup) (hid : new_id ∉ s.hot_stack) :
    (add_memo s t b d now new_id).hot_stack.Nodup := by
  unfold add_memo
  dsimp only
  split
  · rw [if_neg (by decide)]
    exact hnd
  · rw [if_pos rfl]
    exact hotPush_nodup _ _ hnd hid

theorem move_to_hot_nodup (s : MemoApp) (id : Int) (hnd : s.hot_stack.Nodup)
    (hid : id ∉ s.hot_stack) : (move_to_hot s id).hot_stack.Nodup := by
  unfold move_to_hot
  split
  · exact hotPush_nodup _ _ hnd hid
  · exact hnd

theorem shift_up_in_hot_nodup (s : MemoApp) (id : Int) (hnd : s.hot_stack.Nodup) :
    (shift_up_in_hot s id).hot_stack.Nodup := by
  unfold shift_up_in_hot
  split
  · split
    · exact ((swapAdj_perm _ _).symm).nodup hnd
    · exact hnd
  · exact hnd

theorem move_to_top_in_hot_nodup (s : MemoApp) (id : Int) (hnd : s.hot_stack.Nodup) :
    (move_to_top_in_hot s id).hot_stack.Nodup := by
  refine List.nodup_cons.mpr ⟨?_, List.Nodup.filter _ hnd⟩
  intro h
  have := (List.mem_filter.mp h).2
  simp at this

theorem replace_memo_nodup (s : MemoApp) (id now new_id : Int)
    (hnd : s.hot_stack.Nodup) (hid : new_id ∉ s.hot_stack) :
    (replace_memo s id now new_id).hot_stack.Nodup := by
  unfold replace_memo
  dsimp only
  by_cases he : (listTrim s.new_memo_text.data).isEmpty = true
  · rw [if_pos he]
    split
    · exact List.Nodup.filter _ hnd
    · exact hnd
  · rw [if_neg he]
    have h1 := add_memo_nodup s (parse_memo_text s.new_memo_text).1
      (parse_memo_text s.new_memo_text).2 none now new_id hnd hid
    split
    · exact List.Nodup.filter _ h1
    · exact h1

/-- C4 (amended): every lifecycle operation preserves "no duplicate ids in the
hot stack", provided `capture`/`promote_to_hot`/`replace` are applied to an id
that is not already in the stack.  (The unqualified claim fails: promoting an
id already in the stack duplicates it, see
`promote_in_stack_creates_duplicate`.) -/
theorem lifecycle_preserves_nodup (s : MemoApp) (t b : String) (d : Option Nat)
    (now nowd nowr new_id pid cid did delid sid tid rid rnew : Int)
    (hnd : s.hot_stack.Nodup)
    (hcap : new_id ∉ s.hot_stack) (hpro : pid ∉ s.hot_stack)
    (hrep : rnew ∉ s.hot_stack) :
    (add_memo s t b d now new_id).hot_stack.Nodup ∧
    (move_to_hot s pid).hot_stack.Nodup ∧
    (move_to_cold s cid).hot_stack.Nodup ∧
    (move_to_done s did nowd).hot_stack.Nodup ∧
    (delete_memo s delid).hot_stack.Nodup ∧
    (shift_up_in_hot s sid).hot_stack.Nodup ∧
    (move_to_top_in_hot s tid).hot_stack.Nodup ∧
    (replace_memo s rid nowr rnew).hot_stack.Nodup :=
  ⟨add_memo_nodup s t b d now new_id hnd hcap,
   move_to_hot_nodup s pid hnd hpro,
   List.Nodup.filter _ hnd,
   List.Nodup.filter _ hnd,
   List.Nodup.filter _ hnd,
   shift_up_in_hot_nodup s sid hnd,
   move_to_top_in_hot_nodup s tid hnd,
   replace_memo_nodup s rid nowr rnew hnd hrep⟩

/-- A state with one Hot memo, id 1, already on the hot stack. -/
def dupApp : MemoApp :=
  { hot_stack := [1],
    memos := [(1, { id := 1, title := "x", body := "", status := .Hot,
                    creation_date := 0, moved_to_done_date := none,
                    delay_minutes := none, expanded := false })],
    max_hot_count := 2, new_memo_text := "" }

/-- C4 (counterexample): `promote_to_hot` under its stated precondition (the
memo exists) applied to an id already in the hot stack produces a duplicate:
`move_to_hot` pushes to the front without removing the old occurrence
(app.rs 238). -/
theorem promote_in_stack_creates_duplicate :
    dupApp.hot_stack.Nodup ∧ ¬ (move_to_hot dupApp 1).hot_stack.Nodup := by
  decide

/-- Witness for `lifecycle_preserves_nodup` at a concrete two-element state. -/
theorem lifecycle_preserves_nodup_witness :
    (dupApp.hot_stack.Nodup ∧ (2 : Int) ∉ dupApp.hot_stack ∧
     (3 : Int) ∉ dupApp.hot_stack ∧ (4 : Int) ∉ dupApp.hot_stack) ∧
    ((add_memo dupApp "t" "" none 5 2).hot_stack.Nodup ∧
     (move_to_hot dupApp 3).hot_stack.Nodup ∧
     (move_to_cold dupApp 1).hot_stack.Nodup ∧
     (move_to_done dupApp 1 6).hot_stack.Nodup ∧
     (delete_memo dupApp 1).hot_stack.Nodup ∧
     (shift_up_in_hot dupApp 1).hot_stack.Nodup ∧
     (move_to_top_in_hot dupApp 1).hot_stack.Nodup ∧
     (replace_memo dupApp 1 7 4).hot_stack.Nodup) :=
  ⟨⟨by decide, by decide, by decide, by decide⟩,
   lifecycle_preserves_nodup dupApp "t" "" none 5 6 7 2 3 1 1 1 1 1 1 4
     (by decide) (by decide) (by decide) (by decide)⟩

/-! ### Completion-iff-Done invariant (C2) -/

/-- The §3 invariant: a memo record carries a completion timestamp exactly
when its status is `Done`. -/
def CompletionIffDone (m : MemoMap) : Prop :=
  ∀ p ∈ m, (p.2.moved_to_done_date.isSome ↔ p.2.status = MemoStatus.Done)

/-- No id on the hot stack refers to a `Done` memo (a consequence of the hot
stack's own invariant (b); needed so an eviction never archives a `Done`
memo). -/
def StackNotDone (s : MemoApp) : Prop :=
  ∀ p ∈ s.memos, p.1 ∈ s.hot_stack → p.2.status ≠ MemoStatus.Done

instance (m : MemoMap) : Decidable (CompletionIffDone m) :=
  inferInstanceAs (Decidable (∀ p ∈ m,
    (p.2.moved_to_done_date.isSome ↔ p.2.status = MemoStatus.Done)))

instance (s : MemoApp) : Decidable (StackNotDone s) :=
  inferInstanceAs (Decidable (∀ p ∈ s.memos,
    p.1 ∈ s.hot_stack → p.2.status ≠ MemoStatus.Done))

theorem completion_iff_done_update_cold {m : MemoMap} {id : Int}
    (h : CompletionIffDone m)
    (hid : ∀ p ∈ m, p.1 = id → p.2.status ≠ MemoStatus.Done) :
    CompletionIffDone (mapUpdate m id (fun x => { x with status := .Cold })) := by
  intro q hq
  rcases mem_mapUpdate hq with ⟨hm, _⟩ | ⟨p, hp, hkey, hq2⟩
  · exact h q hm
  · subst hq2
    dsimp
    constructor
    · intro hs
      exact absurd ((h p hp).mp hs) (hid p hp hkey)
    · intro hs
      exact absurd hs (by decide)

theorem completion_iff_done_update_done {m : MemoMap} {id now : Int}
    (h : CompletionIffDone m) :
    CompletionIffDone (mapUpdate m id
      (fun x => { x with status := .Done, moved_to_done_date := some now })) := by
  intro q hq
  rcases mem_mapUpdate hq with ⟨hm, _⟩ | ⟨p, hp, hkey, hq2⟩
  · exact h q hm
  · subst hq2
    simp

theorem completion_iff_done_update_hot {m : MemoMap} {id : Int}
    (h : CompletionIffDone m) :
    CompletionIffDone (mapUpdate m id
      (fun x => { x with status := .Hot, moved_to_done_date := none })) := by
  intro q hq
  rcases mem_mapUpdate hq with ⟨hm, _⟩ | ⟨p, hp, hkey, hq2⟩
  · exact h q hm
  · subst hq2
    simp

theorem completion_iff_done_filter {m : MemoMap} (pred : Int × MemoData → Bool)
    (h : CompletionIffDone m) : CompletionIffDone (m.filter pred) :=
  fun q hq => h q (List.mem_filter.mp hq).1

theorem completion_iff_done_insert {m : MemoMap} {id : Int} {v : MemoData}
    (h : CompletionIffDone m) (hv : v.moved_to_done_date = none)
    (hvs : v.status ≠ MemoStatus.Done) :
    CompletionIffDone (mapInsert m id v) := by
  intro q hq
  rcases mem_mapInsert hq with hq1 | ⟨hm, _⟩
  · subst hq1
    simp [hv, hvs]
  · exact h q hm

theorem completion_iff_done_hotPush (s : MemoApp) (id : Int)
    (h : CompletionIffDone s.memos)
    (hstk : ∀ p ∈ s.memos, p.1 ∈ id :: s.hot_stack → p.2.status ≠ MemoStatus.Done) :
    CompletionIffDone (hotPush s id).memos := by
  unfold hotPush
  dsimp only
  split
  · refine completion_iff_done_update_cold h ?_
    intro p hp hkey
    exact hstk p hp (hkey ▸ List.getLast_mem _)
  · exact h

theorem completion_iff_done_move_to_hot (s : MemoApp) (id : Int)
    (h : CompletionIffDone s.memos) (hstk : StackNotDone s) :
    CompletionIffDone (move_to_hot s id).memos := by
  unfold move_to_hot
  split
  · refine completion_iff_done_hotPush _ _ (completion_iff_done_update_hot h) ?_
    intro p hp hin
    rcases mem_mapUpdate hp with ⟨hm, hne⟩ | ⟨p0, hp0, _, heq⟩
    · rcases List.mem_cons.mp hin with h1 | h1
      · exact absurd h1 hne
      · exact hstk p hm h1
    · subst heq
      simp
  · exact h

theorem completion_iff_done_add_memo (s : MemoApp) (t b : String) (d : Option Nat)
    (now new_id : Int) (h : CompletionIffDone s.memos) (hstk : StackNotDone s) :
    CompletionIffDone (add_memo s t b d now new_id).memos := by
  unfold add_memo
  dsimp only
  split
  · rw [if_neg (by decide)]
    exact completion_iff_done_insert h rfl (by simp)
  · rw [if_pos rfl]
    refine completion_iff_done_hotPush _ _
      (completion_iff_done_insert h rfl (by simp)) ?_
    intro p hp hin
    rcases mem_mapInsert hp with hq1 | ⟨hm, hne⟩
    · subst hq1
      simp
    · rcases List.mem_cons.mp hin with h1 | h1
      · exact absurd h1 hne
      · exact hstk p hm h1

theorem shift_up_in_hot_memos (s : MemoApp) (id : Int) :
    (shift_up_in_hot s id).memos = s.memos := by
  unfold shift_up_in_hot
  split
  · split <;> rfl
  · rfl

theorem completion_iff_done_replace (s : MemoApp) (rid now rnew : Int)
    (h : CompletionIffDone s.memos) (hstk : StackNotDone s) :
    CompletionIffDone (replace_memo s rid now rnew).memos := by
  unfold replace_memo
  dsimp only
  by_cases he : (listTrim s.new_memo_text.data).isEmpty = true
  · rw [if_pos he]
    split
    · exact completion_iff_done_filter _ h
    · exact h
  · rw [if_neg he]
    have h1 := completion_iff_done_add_memo s (parse_memo_text s.new_memo_text).1
      (parse_memo_text s.new_memo_text).2 none now rnew h hstk
    split
    · exact completion_iff_done_filter _ h1
    · exact h1

/-- C2 (amended): every lifecycle operation preserves the invariant
"`moved_to_done_date.isSome ↔ status == Done`", provided archive is not
applied to a `Done` memo and the hot stack holds no `Done` memo (so an
eviction never archives one).  The unqualified claim fails: `move_to_cold`
does not clear `moved_to_done_date` (app.rs 210-212), see
`archive_done_breaks_completion_invariant`. -/
theorem lifecycle_preserves_completion_iff_done (s : MemoApp) (t b : String)
    (d : Option Nat) (now nowd nowr new_id pid cid did delid sid tid rid rnew : Int)
    (h : CompletionIffDone s.memos) (hstk : StackNotDone s)
    (hcid : ∀ p ∈ s.memos, p.1 = cid → p.2.status ≠ MemoStatus.Done) :
    CompletionIffDone (add_memo s t b d now new_id).memos ∧
    CompletionIffDone (move_to_hot s pid).memos ∧
    CompletionIffDone (move_to_cold s cid).memos ∧
    CompletionIffDone (move_to_done s did nowd).memos ∧
    CompletionIffDone (delete_memo s delid).memos ∧
    CompletionIffDone (shift_up_in_hot s sid).memos ∧
    CompletionIffDone (move_to_top_in_hot s tid).memos ∧
    CompletionIffDone (replace_memo s rid nowr rnew).memos :=
  ⟨completion_iff_done_add_memo s t b d now new_id h hstk,
   completion_iff_done_move_to_hot s pid h hstk,
   completion_iff_done_update_cold h hcid,
   completion_iff_done_update_done h,
   completion_iff_done_filter _ h,
   by rw [shift_up_in_hot_memos]; exact h,
   h,
   completion_iff_done_replace s rid nowr rnew h hstk⟩

/-- A state holding one completed memo (status `Done`, completion time set). -/
def doneApp : MemoApp :=
  { hot_stack := [],
    memos := [(1, { id := 1, title := "x", body := "", status := .Done,
                    creation_date := 0, moved_to_done_date := some 5,
                    delay_minutes := none, expanded := false })],
    max_hot_count := 2, new_memo_text := "" }

/-- C2 (counterexample): archiving a `Done` memo leaves `moved_to_done_date`
set while the status becomes `Cold` — `move_to_cold` never clears the
completion timestamp, so the biconditional breaks. -/
theorem archive_done_breaks_completion_invariant :
    CompletionIffDone doneApp.memos ∧
    ¬ CompletionIffDone (move_to_cold doneApp 1).memos := by
  decide

/-- Witness for `lifecycle_preserves_completion_iff_done` at a concrete
state. -/
theorem lifecycle_preserves_completion_iff_done_witness :
    (CompletionIffDone dupApp.memos ∧ StackNotDone dupApp ∧
      (∀ p ∈ dupApp.memos, p.1 = (1 : Int) → p.2.status ≠ MemoStatus.Done)) ∧
    (CompletionIffDone (add_memo dupApp "t" "" none 5 2).memos ∧
     CompletionIffDone (move_to_hot dupApp 3).memos ∧
     CompletionIffDone (move_to_cold dupApp 1).memos ∧
     CompletionIffDone (move_to_done dupApp 1 6).memos ∧
     CompletionIffDone (delete_memo dupApp 1).memos ∧
     CompletionIffDone (shift_up_in_hot dupApp 1).memos ∧
     CompletionIffDone (move_to_top_in_hot dupApp 1).memos ∧
     CompletionIffDone (replace_memo dupApp 1 7 4).memos) :=
  ⟨⟨by decide, by decide, by decide⟩,
   lifecycle_preserves_completion_iff_done dupApp "t" "" none 5 6 7 2 3 1 1 1 1 1 1 4
     (by decide) (by decide) (by decide)⟩

/-! ### Capture status and eviction (C3, C5) -/

theorem hotPush_mapLookup (s : MemoApp) (id : Int) (hm : 1 ≤ s.max_hot_count)
    (hid : id ∉ s.hot_stack) :
    mapLookup (hotPush s id).memos id = mapLookup s.memos id := by
  unfold hotPush
  dsimp only
  split
  · next hgt =>
      have hne : s.hot_stack ≠ [] := by
        intro h
        rw [h] at hgt
        simp at hgt
        omega
      have hmv : (id :: s.hot_stack).getLast (List.cons_ne_nil id s.hot_stack)
          = s.hot_stack.getLast hne := List.getLast_cons hne
      have hmem : (id :: s.hot_stack).getLast (List.cons_ne_nil id s.hot_stack)
          ∈ s.hot_stack := by
        rw [hmv]
        exact List.getLast_mem hne
      have hneq : id ≠ (id :: s.hot_stack).getLast (List.cons_ne_nil id s.hot_stack) := by
        intro h
        exact hid (h ▸ hmem)
      exact mapLookup_mapUpdate_ne _ _ _ _ hneq
  · rfl

theorem hotPush_head (s : MemoApp) (id : Int) (hm : 1 ≤ s.max_hot_count)
    (hid : id ∉ s.hot_stack) :
    (hotPush s id).hot_stack.head? = some id := by
  unfold hotPush
  dsimp only
  split
  · next hgt =>
      have hne : s.hot_stack ≠ [] := by
        intro h
        rw [h] at hgt
        simp at hgt
        omega
      have hmv : (id :: s.hot_stack).getLast (List.cons_ne_nil id s.hot_stack)
          = s.hot_stack.getLast hne := List.getLast_cons hne
      have hmem : (id :: s.hot_stack).getLast (List.cons_ne_nil id s.hot_stack)
          ∈ s.hot_stack := by
        rw [hmv]
        exact List.getLast_mem hne
      have hneq : (id != (id :: s.hot_stack).getLast (List.cons_ne_nil id s.hot_stack)) = true := by
        refine bne_iff_ne.mpr ?_
        intro h
        exact hid (h ▸ hmem)
      show (List.filter _ ((id :: s.hot_stack).dropLast)).head? = some id
      rw [List.dropLast_cons_of_ne_nil hne]
      simp [List.filter_cons, hneq]
  · rfl

/-- The record `add_memo` inserts for the new id. -/
def newMemo (t b : String) (d : Option Nat) (now new_id : Int) (st : MemoStatus) : MemoData :=
  { id := new_id, title := t, body := b, status := st, creation_date := now,
    moved_to_done_date := none, delay_minutes := d, expanded := false }

/-- C3 (amended): `capture` creates a memo whose status is `Delayed` exactly
when `delay` is `Some` — including `Some(0)` — and `Hot` when it is `None`;
in the `Hot` case the new id is pushed to the stack front and the eviction
check runs (the state is exactly `hotPush` of the inserted state).  The
original claim's `Some(0) ↦ Hot` fails, see
`capture_some_zero_delay_not_hot`. -/
theorem capture_status_spec (s : MemoApp) (t b : String) (d : Option Nat)
    (now new_id : Int) (hm : 1 ≤ s.max_hot_count) (hid : new_id ∉ s.hot_stack) :
    (mapLookup (add_memo s t b d now new_id).memos new_id =
      some (newMemo t b d now new_id
        (if d.isSome then MemoStatus.Delayed else MemoStatus.Hot))) ∧
    (d.isSome = true → (add_memo s t b d now new_id).hot_stack = s.hot_stack) ∧
    (d = none →
      add_memo s t b d now new_id =
        hotPush { s with memos := mapInsert s.memos new_id (newMemo t b d now new_id MemoStatus.Hot) } new_id ∧
      (add_memo s t b d now new_id).hot_stack.head? = some new_id) := by
  by_cases hd : d.isSome = true
  · refine ⟨?_, fun _ => ?_, fun h => by rw [h] at hd; simp at hd⟩
    · unfold add_memo
      dsimp only
      rw [if_pos hd, if_neg (by decide)]
      exact mapLookup_mapInsert_self _ _ _
    · unfold add_memo
      dsimp only
      rw [if_pos hd, if_neg (by decide)]
  · have hdn : d = none := Option.not_isSome_iff_eq_none.mp (by simpa using hd)
    subst hdn
    have heq : add_memo s t b none now new_id =
        hotPush { s with memos := mapInsert s.memos new_id (newMemo t b none now new_id MemoStatus.Hot) } new_id := by
      unfold add_memo
      dsimp only
      rw [show (if (none : Option Nat).isSome = true then MemoStatus.Delayed
            else MemoStatus.Hot) = MemoStatus.Hot from rfl, if_pos rfl]
      rfl
    refine ⟨?_, fun h => by simp at h, fun _ => ⟨heq, ?_⟩⟩
    · rw [heq, if_neg (by decide)]
      have := hotPush_mapLookup
        { s with memos := mapInsert s.memos new_id (newMemo t b none now new_id MemoStatus.Hot) } new_id hm hid
      rw [this]
      exact mapLookup_mapInsert_self _ _ _
    · rw [heq]
      exact hotPush_head _ _ hm hid

/-- Witness for `capture_status_spec`: a no-delay capture on a fresh state. -/
theorem capture_status_spec_witness :
    (1 ≤ (app0 2).max_hot_count ∧ (1 : Int) ∉ (app0 2).hot_stack) ∧
    ((mapLookup (add_memo (app0 2) "t" "b" none 0 1).memos 1 =
      some (newMemo "t" "b" none 0 1
        (if (none : Option Nat).isSome then MemoStatus.Delayed else MemoStatus.Hot))) ∧
    ((none : Option Nat).isSome = true →
      (add_memo (app0 2) "t" "b" none 0 1).hot_stack = (app0 2).hot_stack) ∧
    ((none : Option Nat) = none →
      add_memo (app0 2) "t" "b" none 0 1 =
        hotPush { app0 2 with memos := mapInsert (app0 2).memos 1 (newMemo "t" "b" none 0 1 MemoStatus.Hot) } 1 ∧
      (add_memo (app0 2) "t" "b" none 0 1).hot_stack.head? = some 1)) :=
  ⟨⟨by decide, by decide⟩,
   capture_status_spec (app0 2) "t" "b" none 0 1 (by decide) (by decide)⟩

/-- C3 (counterexample): a capture with `delay = Some 0` — reachable from the
UI, since `parse_delay_input "0:00" = some 0` — ends with status `Delayed`,
not `Hot`: `add_memo` tests only `delay_minutes.is_some()` (app.rs 172). -/
theorem capture_some_zero_delay_not_hot :
    parse_delay_input "0:00" = some 0 ∧
    (mapLookup (add_memo (app0 2) "t" "" (some 0) 0 1).memos 1).map
      MemoData.status = some MemoStatus.Delayed ∧
    (mapLookup (add_memo (app0 2) "t" "" (some 0) 0 1).memos 1).map
      MemoData.status ≠ some MemoStatus.Hot := by
  decide

/-- C5: a capture that pushes the stack past a full capacity evicts exactly
the single back item: the new stack is the new id followed by all old entries
except the last, the evicted memo's record is changed to `Cold` (an archive
that cannot re-trigger eviction — `move_to_cold` contains no capacity check),
and no other record changes. -/
theorem capture_eviction_exact (s : MemoApp) (t b : String) (now new_id moved : Int)
    (m : MemoData)
    (hm : 1 ≤ s.max_hot_count)
    (hlen : s.hot_stack.length = s.max_hot_count)
    (hnd : s.hot_stack.Nodup)
    (hid : new_id ∉ s.hot_stack)
    (hlast : s.hot_stack.getLast? = some moved)
    (hmm : mapLookup s.memos moved = some m) :
    (add_memo s t b none now new_id).hot_stack = new_id :: s.hot_stack.dropLast ∧
    mapLookup (add_memo s t b none now new_id).memos moved =
      some { m with status := MemoStatus.Cold } ∧
    (∀ k : Int, k ≠ moved → k ≠ new_id →
      mapLookup (add_memo s t b none now new_id).memos k = mapLookup s.memos k) ∧
    (add_memo s t b none now new_id).hot_stack.length = s.max_hot_count := by
  have hne : s.hot_stack ≠ [] := by
    intro h
    rw [h] at hlast
    simp at hlast
  have hmoved : s.hot_stack.getLast hne = moved := by
    have := List.getLast?_eq_getLast s.hot_stack hne
    rw [this] at hlast
    exact Option.some_inj.mp hlast
  have hmem : moved ∈ s.hot_stack := hmoved ▸ List.getLast_mem hne
  have hmoved_ne : moved ≠ new_id := fun h => hid (h ▸ hmem)
  have hsplit : s.hot_stack.dropLast ++ [moved] = s.hot_stack := by
    rw [← hmoved]
    exact List.dropLast_append_getLast hne
  have hnotin : moved ∉ s.hot_stack.dropLast := by
    intro hcon
    have := hsplit ▸ hnd
    rcases List.nodup_append.mp this with ⟨_, _, hdisj⟩
    exact hdisj hcon (by simp)
  have heq : add_memo s t b none now new_id =
      hotPush { s with memos := mapInsert s.memos new_id (newMemo t b none now new_id MemoStatus.Hot) } new_id := by
    unfold add_memo
    dsimp only
    rw [show (if (none : Option Nat).isSome = true then MemoStatus.Delayed
          else MemoStatus.Hot) = MemoStatus.Hot from rfl, if_pos rfl]
    rfl
  have hgt : (new_id :: s.hot_stack).length > s.max_hot_count := by
    simp [hlen]
  have hstep : add_memo s t b none now new_id =
      move_to_cold { s with
        memos := mapInsert s.memos new_id (newMemo t b none now new_id MemoStatus.Hot),
        hot_stack := new_id :: s.hot_stack.dropLast } moved := by
    rw [heq]
    unfold hotPush
    dsimp only
    rw [if_pos hgt, List.dropLast_cons_of_ne_nil hne]
    have : (new_id :: s.hot_stack).getLast (List.cons_ne_nil new_id s.hot_stack) = moved := by
      rw [List.getLast_cons hne]
      exact hmoved
    rw [this]
  have hfilter : (new_id :: s.hot_stack.dropLast).filter (fun x => x != moved)
      = new_id :: s.hot_stack.dropLast := by
    rw [List.filter_eq_self]
    intro a ha
    rcases List.mem_cons.mp ha with h1 | h1
    · subst h1
      exact bne_iff_ne.mpr (Ne.symm hmoved_ne)
    · exact bne_iff_ne.mpr (fun h => hnotin (h ▸ h1))
  refine ⟨?_, ?_, ?_, ?_⟩
  · rw [hstep]
    show List.filter _ _ = _
    exact hfilter
  · rw [hstep]
    show mapLookup (mapUpdate _ moved _) moved = _
    rw [mapLookup_mapUpdate_self, mapLookup_mapInsert_ne _ _ _ _ hmoved_ne, hmm]
    rfl
  · intro k hk1 hk2
    rw [hstep]
    show mapLookup (mapUpdate _ moved _) k = _
    rw [mapLookup_mapUpdate_ne _ _ _ _ hk1, mapLookup_mapInsert_ne _ _ _ _ hk2]
  · rw [hstep]
    show (List.filter _ _).length = _
    rw [hfilter]
    simp [List.length_dropLast]
    omega

/-- The state after capturing A then B (ids 1 and 2) on an empty
capacity-2 state. -/
def sAB : MemoApp :=
  add_memo (add_memo (app0 2) "A" "" none 1 1) "B" "" none 2 2

/-- Witness for `capture_eviction_exact`: the spec's scenario — capacity 2,
capture A, B, C in order; the third capture yields stack [C, B] and archives
exactly A. -/
theorem capture_eviction_exact_witness :
    (1 ≤ sAB.max_hot_count ∧ sAB.hot_stack.length = sAB.max_hot_count ∧
     sAB.hot_stack.Nodup ∧ (3 : Int) ∉ sAB.hot_stack ∧
     sAB.hot_stack.getLast? = some 1 ∧
     mapLookup sAB.memos 1 = some (newMemo "A" "" none 1 1 MemoStatus.Hot)) ∧
    (add_memo sAB "C" "" none 3 3).hot_stack = [3, 2] ∧
    ((add_memo sAB "C" "" none 3 3).hot_stack = 3 :: sAB.hot_stack.dropLast ∧
     mapLookup (add_memo sAB "C" "" none 3 3).memos 1 =
       some { newMemo "A" "" none 1 1 MemoStatus.Hot with status := MemoStatus.Cold } ∧
     (∀ k : Int, k ≠ 1 → k ≠ 3 →
       mapLookup (add_memo sAB "C" "" none 3 3).memos k = mapLookup sAB.memos k) ∧
     (add_memo sAB "C" "" none 3 3).hot_stack.length = sAB.max_hot_count) :=
  ⟨⟨by decide, by decide, by decide, by decide, by decide, by decide⟩,
   by decide,
   capture_eviction_exact sAB "C" "" 3 3 1 (newMemo "A" "" none 1 1 MemoStatus.Hot)
     (by decide) (by decide) (by decide) (by decide) (by decide) (by decide)⟩

/-! ### Load reconciliation (C8) and move_to_top outside the stack (C10) -/

/-- C8: on load, the kept ids are exactly the persisted ids whose memo exists
with status `Hot` (everything else is dropped, with no error path — the
reconciliation is a total filter, database.rs 119-123); the relative order is
preserved (the result is a sublist of the persisted stack); and the corrected
stack is immediately re-persisted (app.rs 126). -/
theorem load_state_reconciliation (stack : List Int) (memos : MemoMap) :
    ((load_state stack memos).1).Sublist stack ∧
    (∀ id : Int, id ∈ (load_state stack memos).1 ↔
      id ∈ stack ∧ ∃ m, mapLookup memos id = some m ∧ m.status = MemoStatus.Hot) ∧
    (load_state stack memos).2 = [DbWrite.saveStack (load_state stack memos).1] := by
  refine ⟨List.filter_sublist _, ?_, rfl⟩
  intro id
  show id ∈ List.filter _ stack ↔ _
  rw [List.mem_filter]
  constructor
  · rintro ⟨h1, h2⟩
    refine ⟨h1, ?_⟩
    cases h : mapLookup memos id with
    | none => rw [h] at h2; simp at h2
    | some m =>
        rw [h] at h2
        exact ⟨m, rfl, by simpa using h2⟩
  · rintro ⟨h1, m, hm, hs⟩
    refine ⟨h1, ?_⟩
    rw [hm]
    simpa using hs

/-- A store with one Hot memo (id 1) and one Cold memo (id 2). -/
def recMemos : MemoMap :=
  [(1, newMemo "h" "" none 0 1 MemoStatus.Hot),
   (2, newMemo "c" "" none 0 2 MemoStatus.Cold)]

/-- Witness for `load_state_reconciliation`: a persisted stack [1, 2, 3]
against `recMemos` self-heals to [1] (2 is Cold, 3 is missing) and [1] is
re-persisted. -/
theorem load_state_reconciliation_witness :
    (load_state [1, 2, 3] recMemos).1 = [1] ∧
    ((load_state [1, 2, 3] recMemos).1).Sublist [1, 2, 3] ∧
    ((2 : Int) ∈ [(1 : Int), 2, 3] ∧ ¬ (2 : Int) ∈ (load_state [1, 2, 3] recMemos).1) ∧
    (load_state [1, 2, 3] recMemos).2 =
      [DbWrite.saveStack (load_state [1, 2, 3] recMemos).1] :=
  ⟨by decide,
   (load_state_reconciliation [1, 2, 3] recMemos).1,
   ⟨by decide, by decide⟩,
   (load_state_reconciliation [1, 2, 3] recMemos).2.2⟩

/-- C10: `move_to_top_in_hot` called with an id not in the hot stack inserts
it at position 0 unconditionally — no memo lookup, no capacity or eviction
check (app.rs 274-283): the stack grows by one (exceeding `max_hot_count`
whenever it was full) and the grown stack is the one persisted, whatever memo
(if any) the id refers to. -/
theorem move_to_top_outside_stack (s : MemoApp) (id : Int) (h : id ∉ s.hot_stack) :
    (move_to_top_in_hot s id).hot_stack = id :: s.hot_stack ∧
    (move_to_top_in_hot s id).hot_stack.length = s.hot_stack.length + 1 ∧
    (move_to_top_in_hot s id).memos = s.memos ∧
    move_to_top_in_hot_writes s id = [DbWrite.saveStack (id :: s.hot_stack)] ∧
    (s.hot_stack.length = s.max_hot_count →
      (move_to_top_in_hot s id).hot_stack.length > s.max_hot_count) := by
  have hf : s.hot_stack.filter (fun x => x != id) = s.hot_stack := by
    rw [List.filter_eq_self]
    intro a ha
    exact bne_iff_ne.mpr (fun hh => h (hh ▸ ha))
  have h1 : (move_to_top_in_hot s id).hot_stack = id :: s.hot_stack := by
    show id :: List.filter _ _ = _
    rw [hf]
  refine ⟨h1, by rw [h1]; rfl, rfl, ?_, fun hc => by rw [h1]; simp [hc]⟩
  show [DbWrite.saveStack (move_to_top_in_hot s id).hot_stack] = _
  rw [h1]

/-- A full capacity-2 stack whose ids 5 and 6 have no memo records at all. -/
def fullApp : MemoApp :=
  { hot_stack := [5, 6], memos := [], max_hot_count := 2, new_memo_text := "" }

/-- Witness for `move_to_top_outside_stack`: moving the nonexistent id 9 to
the top of a full stack grows it to [9, 5, 6], beyond capacity. -/
theorem move_to_top_outside_stack_witness :
    ((9 : Int) ∉ fullApp.hot_stack) ∧
    ((move_to_top_in_hot fullApp 9).hot_stack = 9 :: fullApp.hot_stack ∧
     (move_to_top_in_hot fullApp 9).hot_stack.length = fullApp.hot_stack.length + 1 ∧
     (move_to_top_in_hot fullApp 9).memos = fullApp.memos ∧
     move_to_top_in_hot_writes fullApp 9 = [DbWrite.saveStack (9 :: fullApp.hot_stack)] ∧
     (fullApp.hot_stack.length = fullApp.max_hot_count →
       (move_to_top_in_hot fullApp 9).hot_stack.length > fullApp.max_hot_count)) :=
  ⟨by decide, move_to_top_outside_stack fullApp 9 (by decide)⟩

/-! ### Persistence-failure behaviour (C9) -/

/-- C9 (counterexample): `capture`'s first action is the database insert
(app.rs 168); if that storage write fails the operation surfaces the error but
no in-memory state has changed — contradicting "the in-memory state has
already changed for that operation". -/
theorem capture_failed_insert_state_unchanged :
    (add_memo_db (app0 2) "t" "" none 0 1 (fun _ => false) 0).1 = app0 2 ∧
    (add_memo_db (app0 2) "t" "" none 0 1 (fun _ => false) 0).2.1 = false := by
  decide

/-- C9 (amended): persistence failure is surfaced as an error and nothing is
rolled back: the in-memory mutations performed before the failing write stand.
In particular, when the final stack flush of `archive`/`complete` fails, the
in-memory state equals the successful operation's state exactly; and when
`capture`'s initial insert fails, no in-memory mutation has happened yet. -/
theorem no_rollback_on_failed_flush (s : MemoApp) (id now : Int) (t b : String)
    (d : Option Nat) (new_id : Int) (ok bad : Nat → Bool) (k j : Nat)
    (hex : (mapLookup s.memos id).isSome = true)
    (h0 : ok k = true) (h1 : ok (k + 1) = false) (hb : bad j = false) :
    move_to_cold_db s id ok k = (move_to_cold s id, false, k + 2) ∧
    move_to_done_db s id now ok k = (move_to_done s id now, false, k + 2) ∧
    add_memo_db s t b d now new_id bad j = (s, false, j + 1) := by
  refine ⟨?_, ?_, ?_⟩
  · unfold move_to_cold_db
    dsimp only
    rw [if_pos hex, if_pos h0, h1]
    rfl
  · unfold move_to_done_db
    dsimp only
    rw [if_pos hex, if_pos h0, h1]
    rfl
  · unfold add_memo_db
    rw [hb]
    rfl

/-- Witness for `no_rollback_on_failed_flush` on a concrete one-memo state
with an oracle whose second write fails. -/
theorem no_rollback_on_failed_flush_witness :
    ((mapLookup dupApp.memos 1).isSome = true ∧
     ((fun n => n == 0) : Nat → Bool) 0 = true ∧
     ((fun n => n == 0) : Nat → Bool) (0 + 1) = false ∧
     ((fun _ => false) : Nat → Bool) 0 = false) ∧
    (move_to_cold_db dupApp 1 (fun n => n == 0) 0 = (move_to_cold dupApp 1, false, 0 + 2) ∧
     move_to_done_db dupApp 1 9 (fun n => n == 0) 0 = (move_to_done dupApp 1 9, false, 0 + 2) ∧
     add_memo_db dupApp "t" "" none 9 2 (fun _ => false) 0 = (dupApp, false, 0 + 1)) :=
  ⟨⟨by decide, by decide, by decide, by decide⟩,
   no_rollback_on_failed_flush dupApp 1 9 "t" "" none 2 (fun n => n == 0)
     (fun _ => false) 0 0 (by decide) (by decide) (by decide) (by decide)⟩

/-! ### Search and filter (C7) -/

instance : IsTotal (Int × MemoData) coldR :=
  ⟨by
    intro a b
    unfold coldR coldLe
    rcases le_total b.2.creation_date a.2.creation_date with h | h
    · exact Or.inl (decide_eq_true h)
    · exact Or.inr (decide_eq_true h)⟩

instance : IsTrans (Int × MemoData) coldR :=
  ⟨by
    intro a b c hab hbc
    unfold coldR coldLe at hab hbc ⊢
    exact decide_eq_true (le_trans (of_decide_eq_true hbc) (of_decide_eq_true hab))⟩

instance : IsTotal (Int × MemoData) doneR :=
  ⟨by
    intro a b
    unfold doneR doneLe
    cases ha : a.2.moved_to_done_date <;> cases hb : b.2.moved_to_done_date <;>
      simp_all <;> omega⟩

instance : IsTrans (Int × MemoData) doneR :=
  ⟨by
    intro a b c hab hbc
    unfold doneR doneLe at hab hbc ⊢
    cases ha : a.2.moved_to_done_date <;> cases hb : b.2.moved_to_done_date <;>
      cases hc : c.2.moved_to_done_date <;> simp_all <;> omega⟩

/-- C7: the filtered view returns exactly the memos of the requested status
matching the (blank-matches-everything) case-insensitive substring search, and
`Cold`/`Done` results are sorted by their respective descending comparators
(creation time for `Cold`; completion time for `Done`, memos lacking one last,
among themselves by creation time). -/
theorem get_filtered_memos_spec (s : MemoApp) (status : MemoStatus) (search : String) :
    (∀ p : Int × MemoData, p ∈ get_filtered_memos s status search ↔
      (p ∈ s.memos ∧ p.2.status = status ∧
        ((listTrim search.data).isEmpty = true ∨ memo_matches search p.2 = true))) ∧
    (status = MemoStatus.Cold → (get_filtered_memos s status search).Pairwise coldR) ∧
    (status = MemoStatus.Done → (get_filtered_memos s status search).Pairwise doneR) := by
  have hmem : ∀ (p : Int × MemoData),
      p ∈ (if (listTrim search.data).isEmpty then
             s.memos.filter (fun p => p.2.status == status)
           else (s.memos.filter (fun p => p.2.status == status)).filter
             (fun p => memo_matches search p.2)) ↔
      (p ∈ s.memos ∧ p.2.status = status ∧
        ((listTrim search.data).isEmpty = true ∨ memo_matches search p.2 = true)) := by
    intro p
    by_cases he : (listTrim search.data).isEmpty = true
    · rw [if_pos he]
      simp [List.mem_filter, he]
    · rw [if_neg he]
      simp [List.mem_filter, he, and_assoc]
      tauto
  cases status with
  | Hot =>
      refine ⟨fun p => hmem p, fun h => absurd h (by decide), fun h => absurd h (by decide)⟩
  | Delayed =>
      refine ⟨fun p => hmem p, fun h => absurd h (by decide), fun h => absurd h (by decide)⟩
  | Cold =>
      refine ⟨?_, fun _ => ?_, fun h => absurd h (by decide)⟩
      · intro p
        show p ∈ List.insertionSort coldR _ ↔ _
        rw [List.mem_insertionSort]
        exact hmem p
      · show (List.insertionSort coldR _).Pairwise coldR
        exact List.sorted_insertionSort coldR _
  | Done =>
      refine ⟨?_, fun h => absurd h (by decide), fun _ => ?_⟩
      · intro p
        show p ∈ List.insertionSort doneR _ ↔ _
        rw [List.mem_insertionSort]
        exact hmem p
      · show (List.insertionSort doneR _).Pairwise doneR
        exact List.sorted_insertionSort doneR _

/-- The spec's search scenario: "Buy milk" (Cold, created at 10) and
"Buy bread" (Cold, created at 20). -/
def searchApp : MemoApp :=
  { hot_stack := [],
    memos := [(1, newMemo "Buy milk" "" none 10 1 MemoStatus.Cold),
              (2, newMemo "Buy bread" "" none 20 2 MemoStatus.Cold)],
    max_hot_count := 2, new_memo_text := "" }

/-- Witness for `get_filtered_memos_spec`: searching "buy" among the Cold
memos returns [bread, milk] (newest first), both matching case-insensitively. -/
theorem get_filtered_memos_spec_witness :
    (get_filtered_memos searchApp MemoStatus.Cold "buy").map (fun p => p.1) = [2, 1] ∧
    ((1, newMemo "Buy milk" "" none 10 1 MemoStatus.Cold) ∈
        get_filtered_memos searchApp MemoStatus.Cold "buy" ↔
      ((1, newMemo "Buy milk" "" none 10 1 MemoStatus.Cold) ∈ searchApp.memos ∧
        (newMemo "Buy milk" "" none 10 1 MemoStatus.Cold).status = MemoStatus.Cold ∧
        ((listTrim "buy".data).isEmpty = true ∨
          memo_matches "buy" (newMemo "Buy milk" "" none 10 1 MemoStatus.Cold) = true))) ∧
    (MemoStatus.Cold = MemoStatus.Cold →
      (get_filtered_memos searchApp MemoStatus.Cold "buy").Pairwise coldR) :=
  ⟨by decide,
   (get_filtered_memos_spec searchApp MemoStatus.Cold "buy").1
     (1, newMemo "Buy milk" "" none 10 1 MemoStatus.Cold),
   (get_filtered_memos_spec searchApp MemoStatus.Cold "buy").2.1⟩

/-! ### Delayed promotion (C6) -/

theorem hotPush_untouched (s : MemoApp) (j id : Int) (hid : id ∉ s.hot_stack)
    (hne : id ≠ j) :
    mapLookup (hotPush s j).memos id = mapLookup s.memos id ∧
    id ∉ (hotPush s j).hot_stack := by
  have hidc : id ∉ j :: s.hot_stack := by
    intro h
    rcases List.mem_cons.mp h with h1 | h1
    · exact hne h1
    · exact hid h1
  unfold hotPush
  dsimp only
  split
  · have hmem : (j :: s.hot_stack).getLast (List.cons_ne_nil j s.hot_stack)
        ∈ j :: s.hot_stack := List.getLast_mem _
    have hnm : id ≠ (j :: s.hot_stack).getLast (List.cons_ne_nil j s.hot_stack) := by
      intro h
      exact hidc (h ▸ hmem)
    constructor
    · exact mapLookup_mapUpdate_ne _ _ _ _ hnm
    · intro h
      have h2 := (List.mem_filter.mp h).1
      have h3 := (List.dropLast_sublist (j :: s.hot_stack)).subset h2
      exact hidc h3
  · exact ⟨rfl, hidc⟩

theorem move_to_hot_untouched (s : MemoApp) (j id : Int) (hid : id ∉ s.hot_stack)
    (hne : id ≠ j) :
    mapLookup (move_to_hot s j).memos id = mapLookup s.memos id ∧
    id ∉ (move_to_hot s j).hot_stack := by
  unfold move_to_hot
  split
  · have h1 := hotPush_untouched { s with memos := mapUpdate s.memos j (fun m => { m with status := .Hot, moved_to_done_date := none }) } j id hid hne
    exact ⟨h1.1.trans (mapLookup_mapUpdate_ne _ _ _ _ hne), h1.2⟩
  · exact ⟨rfl, hid⟩

theorem foldl_move_to_hot_untouched (js : List Int) (s : MemoApp) (id : Int)
    (hid : id ∉ s.hot_stack) (hne : ∀ j ∈ js, j ≠ id) :
    mapLookup ((js.foldl (fun st j => move_to_hot st j) s)).memos id
      = mapLookup s.memos id ∧
    id ∉ (js.foldl (fun st j => move_to_hot st j) s).hot_stack := by
  induction js generalizing s with
  | nil => exact ⟨rfl, hid⟩
  | cons j js ih =>
      have hj : id ≠ j := Ne.symm (hne j (List.mem_cons_self j js))
      have h1 := move_to_hot_untouched s j id hid hj
      rw [List.foldl_cons]
      have h2 := ih (move_to_hot s j) h1.2 (fun x hx => hne x (List.mem_cons_of_mem _ hx))
      exact ⟨h2.1.trans h1.1, h2.2⟩

theorem add_memo_delayed (s0 : MemoApp) (t b : String) (dm : Nat) (now0 id : Int)
    (hfresh : mapLookup s0.memos id = none) :
    add_memo s0 t b (some dm) now0 id =
      { s0 with memos :=
        s0.memos ++ [(id, newMemo t b (some dm) now0 id MemoStatus.Delayed)] } := by
  unfold add_memo
  dsimp only
  rw [show (if (some dm : Option Nat).isSome = true then MemoStatus.Delayed
        else MemoStatus.Hot) = MemoStatus.Delayed from rfl,
      if_neg (by decide), mapInsert_of_not_mem hfresh]
  rfl

theorem move_to_hot_lookup_self (s : MemoApp) (id : Int) (m : MemoData)
    (hm : mapLookup s.memos id = some m)
    (hmax : 1 ≤ s.max_hot_count) (hid : id ∉ s.hot_stack) :
    mapLookup (move_to_hot s id).memos id
      = some { m with status := MemoStatus.Hot, moved_to_done_date := none } := by
  unfold move_to_hot
  rw [if_pos (by rw [hm]; rfl)]
  have h := hotPush_mapLookup { s with memos := mapUpdate s.memos id (fun m => { m with status := .Hot, moved_to_done_date := none }) } id hmax hid
  rw [h, mapLookup_mapUpdate_self, hm]
  rfl

theorem check_promote_eq (s : MemoApp) (now : Int) :
    check_and_promote_delayed_memos s now =
      ((s.memos.filter (fun p => memo_ready now p.2)).map (fun p => p.1)).foldl
        (fun st j => move_to_hot st j) s := rfl

/-- C6: a memo captured with a 30-minute delay on a fresh id is `Delayed`
immediately after capture; any `check_and_promote_delayed_memos` invoked
strictly before `creation_time + 30` minutes leaves it `Delayed`; and an
invocation at or after that instant (with no other memo due) is exactly
`promote_to_hot` of that id — hence subject to the eviction policy — after
which its status is `Hot`. -/
theorem delayed_memo_promotion (s0 : MemoApp) (t b : String) (now0 now1 now2 id : Int)
    (hfresh : mapLookup s0.memos id = none)
    (hstack : id ∉ s0.hot_stack)
    (hmax : 1 ≤ s0.max_hot_count)
    (h1 : now1 < now0 + 60 * 30)
    (h2 : now0 + 60 * 30 ≤ now2)
    (hquiet : ∀ p ∈ s0.memos, memo_ready now2 p.2 = false) :
    (mapLookup (add_memo s0 t b (some 30) now0 id).memos id).map MemoData.status
      = some MemoStatus.Delayed ∧
    (mapLookup (check_and_promote_delayed_memos
        (add_memo s0 t b (some 30) now0 id) now1).memos id).map MemoData.status
      = some MemoStatus.Delayed ∧
    check_and_promote_delayed_memos (add_memo s0 t b (some 30) now0 id) now2
      = move_to_hot (add_memo s0 t b (some 30) now0 id) id ∧
    (mapLookup (check_and_promote_delayed_memos
        (add_memo s0 t b (some 30) now0 id) now2).memos id).map MemoData.status
      = some MemoStatus.Hot := by
  have hs1 := add_memo_delayed s0 t b 30 now0 id hfresh
  have hlookB : mapLookup
      ({ s0 with memos :=
        s0.memos ++ [(id, newMemo t b (some 30) now0 id MemoStatus.Delayed)] } :
          MemoApp).memos id
      = some (newMemo t b (some 30) now0 id MemoStatus.Delayed) :=
    mapLookup_append_right s0.memos (id, newMemo t b (some 30) now0 id MemoStatus.Delayed)
      hfresh
  have hlook1 : mapLookup (add_memo s0 t b (some 30) now0 id).memos id
      = some (newMemo t b (some 30) now0 id MemoStatus.Delayed) := by
    rw [hs1]
    exact hlookB
  have hready1 : memo_ready now1 (newMemo t b (some 30) now0 id MemoStatus.Delayed) = false := by
    simp [memo_ready, newMemo]
    omega
  have hready2 : memo_ready now2 (newMemo t b (some 30) now0 id MemoStatus.Delayed) = true := by
    simp [memo_ready, newMemo]
    omega
  have hquietf : ∀ (nw : Int), (∀ p ∈ s0.memos, memo_ready nw p.2 = false) →
      List.filter (fun p => memo_ready nw p.2) s0.memos = [] := by
    intro nw hq
    rw [List.filter_eq_nil_iff]
    intro p hp
    simp [hq p hp]
  have hjs : ∀ j ∈ ((s0.memos.filter (fun p => memo_ready now1 p.2)).map (fun p => p.1)),
      j ≠ id := by
    intro j hj
    rcases List.mem_map.mp hj with ⟨p, hp, hpj⟩
    have := mapLookup_eq_none_iff.mp hfresh p (List.mem_filter.mp hp).1
    rw [← hpj]
    exact this
  have hc3 : check_and_promote_delayed_memos (add_memo s0 t b (some 30) now0 id) now2
      = move_to_hot (add_memo s0 t b (some 30) now0 id) id := by
    rw [hs1, check_promote_eq]
    dsimp only
    rw [List.filter_append, hquietf now2 hquiet,
        show List.filter (fun p => memo_ready now2 p.2)
            [(id, newMemo t b (some 30) now0 id MemoStatus.Delayed)]
          = [(id, newMemo t b (some 30) now0 id MemoStatus.Delayed)] from by
          simp [hready2]]
    rfl
  refine ⟨?_, ?_, hc3, ?_⟩
  · rw [hlook1]
    rfl
  · rw [hs1, check_promote_eq]
    dsimp only
    rw [List.filter_append,
        show List.filter (fun p => memo_ready now1 p.2)
            [(id, newMemo t b (some 30) now0 id MemoStatus.Delayed)] = [] from by
          simp [hready1],
        List.append_nil]
    have hfold := foldl_move_to_hot_untouched
      ((s0.memos.filter (fun p => memo_ready now1 p.2)).map (fun p => p.1))
      { s0 with memos :=
        s0.memos ++ [(id, newMemo t b (some 30) now0 id MemoStatus.Delayed)] }
      id hstack hjs
    rw [hfold.1, hlookB]
    rfl
  · rw [hc3, hs1, move_to_hot_lookup_self _ id _ hlookB hmax hstack]
    rfl

/-- Witness for `delayed_memo_promotion`: a 30-minute delayed capture at time
0 stays `Delayed` at 1799 s and is `Hot` after the check at 1800 s. -/
theorem delayed_memo_promotion_witness :
    (mapLookup (app0 2).memos 1 = none ∧ (1 : Int) ∉ (app0 2).hot_stack ∧
     1 ≤ (app0 2).max_hot_count ∧ (1799 : Int) < 0 + 60 * 30 ∧
     (0 : Int) + 60 * 30 ≤ 1800 ∧
     (∀ p ∈ (app0 2).memos, memo_ready 1800 p.2 = false)) ∧
    ((mapLookup (add_memo (app0 2) "t" "" (some 30) 0 1).memos 1).map MemoData.status
       = some MemoStatus.Delayed ∧
     (mapLookup (check_and_promote_delayed_memos
         (add_memo (app0 2) "t" "" (some 30) 0 1) 1799).memos 1).map MemoData.status
       = some MemoStatus.Delayed ∧
     check_and_promote_delayed_memos (add_memo (app0 2) "t" "" (some 30) 0 1) 1800
       = move_to_hot (add_memo (app0 2) "t" "" (some 30) 0 1) 1 ∧
     (mapLookup (check_and_promote_delayed_memos
         (add_memo (app0 2) "t" "" (some 30) 0 1) 1800).memos 1).map MemoData.status
       = some MemoStatus.Hot) :=
  ⟨⟨by decide, by decide, by decide, by decide, by decide, by decide⟩,
   delayed_memo_promotion (app0 2) "t" "" 0 1799 1800 1
     (by decide) (by decide) (by decide) (by decide) (by decide) (by decide)⟩
